import Mathlib

/-
  Verification of the brainfuck interpreter in src/.history/src/main_20240412175723.rs.

  The embedding follows the Rust source:
  * `TokenKind`, `Token`, `identify`, `lex` embed the lexer (`Lexer::lex`, `Lexer::identify`).
  * `loadAux` / `loadJumpTable` embed `Interpreter::load_jump_table`; the `HashMap` is
    embedded as a function `Nat → Option Nat` with point update for `insert`.
  * `dispatch` / `exec1` / `run` / `interpret` embed the execution loop `Interpreter::interpret`:
    one token dispatch, dispatch followed by the unconditional `program_cursor += 1`,
    the fuel-indexed loop, and jump-table construction followed by the loop.
  * Cells are `u8`, embedded as `Nat` with explicit `% 256` for the `wrapping_add` /
    `wrapping_sub` arithmetic.  The cursors are `usize`, embedded as `Nat` with explicit
    `% 2 ^ 64`; `self.mem_cursor -= 1` and `+= 1` are embedded with release-mode wrapping
    semantics (a debug build would abort on the underflow instead; either way the claimed
    behaviour fails at the same inputs).
  * Rust panics (out-of-bounds `Vec` indexing, `Option::unwrap` on `None`,
    `unreachable!`, `panic!`, the `expect` on a failed stdin read) are embedded as
    `Except.error` values of type `BfError`.
  * `print!("{}", cell as char)` writes the UTF-8 encoding of the Unicode code point
    equal to the cell value; `charUtf8` embeds that encoding for code points below 256.
  * stdin / stdout are embedded as a `List Nat` of pending input bytes inside the state
    and a `List Nat` of emitted output bytes.
-/

/-- The eight operation kinds, from `enum TokenKind` in the source. -/
inductive TokenKind where
  | MoveLeft
  | MoveRight
  | Increment
  | Decrement
  | Print
  | Input
  | Jmp
  | Pmj
deriving DecidableEq, Repr

/-- A lexed token: operation kind and 1-based source position, from `struct Token`. -/
structure Token where
  kind : TokenKind
  pos : Nat
deriving DecidableEq, Repr

/-- Character classification, from `Lexer::identify`. -/
def identify (c : Char) : Option TokenKind :=
  match c with
  | '<' => some TokenKind.MoveLeft
  | '>' => some TokenKind.MoveRight
  | '+' => some TokenKind.Increment
  | '-' => some TokenKind.Decrement
  | '.' => some TokenKind.Print
  | ',' => some TokenKind.Input
  | '[' => some TokenKind.Jmp
  | ']' => some TokenKind.Pmj
  | _ => none

/-- The scanning loop of `Lexer::lex`: `pos` starts at 1 and is incremented for every
scanned character, recognized or not; only recognized characters become tokens. -/
def lexAux : List Char → Nat → List Token
  | [], _ => []
  | c :: cs, pos =>
    match identify c with
    | some k => Token.mk k pos :: lexAux cs (pos + 1)
    | none => lexAux cs (pos + 1)

/-- The lexer `Lexer::lex`, started at position 1 on the full character stream. -/
def lex (s : List Char) : List Token := lexAux s 1

/-- The 8-character operator alphabet recognized by the lexer. -/
def opAlphabet : List Char := ['<', '>', '+', '-', '.', ',', '[', ']']

/-- Embedded runtime failures: each constructor stands for one panic site in the source.
`unmatchedClose` is the `unreachable!("")` hit when a `]` pops an empty stack,
`oddBrackets` the `panic!("No matching ]")` parity check, `missingJump` the
`.unwrap()` on a missing jump-table key, `inputFail` the `.expect(...)` on a failed
stdin read (carrying the token's source position), and `tapeOOB` an out-of-bounds
`Vec` index. -/
inductive BfError where
  | unmatchedClose (i : Nat) : BfError
  | oddBrackets : BfError
  | missingJump (pc : Nat) : BfError
  | inputFail (pos : Nat) : BfError
  | tapeOOB : BfError
deriving DecidableEq, Repr

/-- The jump table, embedding `HashMap<usize, usize>` as a lookup function. -/
def JmpTable : Type := Nat → Option Nat

/-- The empty jump table (`HashMap::new()`). -/
def jtEmpty : JmpTable := fun _ => none

/-- Point insertion, embedding `HashMap::insert` (later insertions shadow earlier ones). -/
def jtInsert (t : JmpTable) (k v : Nat) : JmpTable :=
  fun x => if x = k then some v else t x

/-- Boolean success test for an `Except` result. -/
def exOk {ε α : Type} : Except ε α → Bool
  | Except.ok _ => true
  | Except.error _ => false

/-- The scanning loop of `Interpreter::load_jump_table`: `i` is the token index,
`stack` the auxiliary stack of open-bracket indices (head = top), `check` the running
count of bracket tokens.  A `]` with an empty stack hits `unreachable!("")`; after the
scan, an odd `check` hits `panic!("No matching ]")`. -/
def loadAux : List Token → Nat → List Nat → JmpTable → Nat → Except BfError JmpTable
  | [], _, _, table, check =>
    if check % 2 ≠ 0 then Except.error BfError.oddBrackets else Except.ok table
  | t :: ts, i, stack, table, check =>
    match t.kind with
    | TokenKind.Jmp => loadAux ts (i + 1) (i :: stack) table (check + 1)
    | TokenKind.Pmj =>
      match stack with
      | index :: rest =>
        loadAux ts (i + 1) rest (jtInsert (jtInsert table index i) i index) (check + 1)
      | [] => Except.error (BfError.unmatchedClose i)
    | _ => loadAux ts (i + 1) stack table check

/-- Jump-table construction, `Interpreter::load_jump_table`. -/
def loadJumpTable (ts : List Token) : Except BfError JmpTable :=
  loadAux ts 0 [] jtEmpty 0

/-- The `usize` modulus: cursor arithmetic wraps at `2 ^ 64`. -/
def USIZE : Nat := 2 ^ 64

/-- The interpreter state: `program_cursor`, `mem_cursor`, `mem` from
`struct Interpreter`, plus the bytes written so far and the pending input bytes. -/
structure St where
  programCursor : Nat
  memCursor : Nat
  mem : List Nat
  output : List Nat
  input : List Nat
deriving DecidableEq, Repr

/-- Reading `self.mem[self.mem_cursor]`; an index out of bounds is a panic. -/
def readCell (s : St) : Except BfError Nat :=
  if h : s.memCursor < s.mem.length then Except.ok (s.mem.get ⟨s.memCursor, h⟩)
  else Except.error BfError.tapeOOB

/-- Writing `self.mem[self.mem_cursor] = w`; an index out of bounds is a panic. -/
def writeCell (s : St) (w : Nat) : Except BfError St :=
  if s.memCursor < s.mem.length then
    Except.ok { s with mem := s.mem.set s.memCursor w }
  else Except.error BfError.tapeOOB

/-- The UTF-8 encoding of the Unicode code point `v` (for `v < 256`), as written by
`print!("{}", v as char)`: one byte below 128, two bytes from 128 to 255. -/
def charUtf8 (v : Nat) : List Nat :=
  if v < 128 then [v] else [192 + v / 64, 128 + v % 64]

/-- One token dispatch: the `match tok.kind` in the execution loop of
`Interpreter::interpret`, excluding the trailing `program_cursor += 1`. -/
def dispatch (table : JmpTable) (tok : Token) (s : St) : Except BfError St :=
  match tok.kind with
  | TokenKind.Print =>
    match readCell s with
    | Except.error e => Except.error e
    | Except.ok v => Except.ok { s with output := s.output ++ charUtf8 v }
  | TokenKind.Input =>
    match s.input with
    | [] => Except.error (BfError.inputFail tok.pos)
    | b :: rest => writeCell { s with input := rest } (b % 256)
  | TokenKind.MoveRight =>
    let c := (s.memCursor + 1) % USIZE
    Except.ok { s with
      memCursor := c,
      mem := if s.mem.length ≤ c then s.mem ++ [0] else s.mem }
  | TokenKind.MoveLeft =>
    Except.ok { s with
      mem := if s.memCursor = 0 then 0 :: s.mem else s.mem,
      memCursor := (s.memCursor + (USIZE - 1)) % USIZE }
  | TokenKind.Increment =>
    match readCell s with
    | Except.error e => Except.error e
    | Except.ok v => writeCell s ((v + 1) % 256)
  | TokenKind.Decrement =>
    match readCell s with
    | Except.error e => Except.error e
    | Except.ok v => writeCell s ((v + 255) % 256)
  | TokenKind.Jmp =>
    match readCell s with
    | Except.error e => Except.error e
    | Except.ok v =>
      if v = 0 then
        match table s.programCursor with
        | some j => Except.ok { s with programCursor := j }
        | none => Except.error (BfError.missingJump s.programCursor)
      else Except.ok s
  | TokenKind.Pmj =>
    match readCell s with
    | Except.error e => Except.error e
    | Except.ok v =>
      if v ≠ 0 then
        match table s.programCursor with
        | some j => Except.ok { s with programCursor := j }
        | none => Except.error (BfError.missingJump s.programCursor)
      else Except.ok s

/-- One full loop iteration: dispatch, then the unconditional `program_cursor += 1`
(applied also after a jump, so a jump lands one past the target bracket). -/
def exec1 (table : JmpTable) (tok : Token) (s : St) : Except BfError St :=
  match dispatch table tok s with
  | Except.error e => Except.error e
  | Except.ok t => Except.ok { t with programCursor := t.programCursor + 1 }

/-- The execution loop of `Interpreter::interpret`, fuel-indexed: `self.tokens.get`
on the program cursor, loop exit on `None`, otherwise one iteration.  The result is
`ok none` when the fuel runs out, `ok (some s)` on normal termination. -/
def run (table : JmpTable) (ts : List Token) : Nat → St → Except BfError (Option St)
  | 0, _ => Except.ok none
  | fuel + 1, s =>
    match ts.get? s.programCursor with
    | none => Except.ok (some s)
    | some tok =>
      match exec1 table tok s with
      | Except.error e => Except.error e
      | Except.ok t => run table ts fuel t

/-- The initial state of `Interpreter::from`: cursors 0, tape `vec![0]`. -/
def initSt (input : List Nat) : St :=
  { programCursor := 0, memCursor := 0, mem := [0], output := [], input := input }

/-- The whole of `Interpreter::interpret`: jump-table construction, then the loop. -/
def interpret (ts : List Token) (input : List Nat) (fuel : Nat) :
    Except BfError (Option St) :=
  match loadJumpTable ts with
  | Except.error e => Except.error e
  | Except.ok table => run table ts fuel (initSt input)

/-- Bracket-token counts used to state the jump-table properties. -/
def countJmp (ts : List Token) : Nat :=
  ts.countP (fun t => decide (t.kind = TokenKind.Jmp))

/-- Count of loop-close tokens. -/
def countPmj (ts : List Token) : Nat :=
  ts.countP (fun t => decide (t.kind = TokenKind.Pmj))

/-- Well-formedness of a token sequence ("all brackets matched"): scanning with a
depth counter, a close never meets depth 0 and the final depth is 0. -/
def balancedAux : List Token → Nat → Bool
  | [], d => d == 0
  | t :: ts, d =>
    match t.kind with
    | TokenKind.Jmp => balancedAux ts (d + 1)
    | TokenKind.Pmj => decide (0 < d) && balancedAux ts (d - 1)
    | _ => balancedAux ts d

/-- A token sequence is balanced when the depth scan starting at 0 succeeds. -/
def balanced (ts : List Token) : Bool := balancedAux ts 0

/-- The tokens strictly between positions `i` and `j`. -/
def seg (ts : List Token) (i j : Nat) : List Token := (ts.take j).drop (i + 1)

/-- The kind of the token at position `n`, when the position is in range. -/
def kindAt (ts : List Token) (n : Nat) : Option TokenKind := (ts.get? n).map Token.kind

/-- Positions `i < j` form a matched open/close pair: a loop-open at `i`, a
loop-close at `j`, and the tokens strictly between them balanced, so that the two
brackets sit at the same nesting depth. -/
def matchedPair (ts : List Token) (i j : Nat) : Prop :=
  i < j ∧ kindAt ts i = some TokenKind.Jmp ∧ kindAt ts j = some TokenKind.Pmj ∧
  balanced (seg ts i j) = true

/-- Invariant of the auxiliary stack during the jump-table scan at position `p`:
entries are loop-open positions, and the tokens strictly between each entry and the
one above it (the scan position, for the top entry) are balanced. -/
def segsOk (ts : List Token) : Nat → List Nat → Prop
  | _, [] => True
  | p, s :: rest =>
    s < p ∧ kindAt ts s = some TokenKind.Jmp ∧ balanced (seg ts s p) = true ∧
    segsOk ts s rest

/-- C2: the claim says the tape cursor is always a valid index, so no tape access is
out of range.  Evaluating the code on `<+` shows the move-left underflows the cursor
and the following increment's tape access is out of range (a panic in the code). -/
theorem bfi_C2_tape_out_of_range :
    interpret (lex ['<', '+']) [] 3 = Except.error BfError.tapeOOB :=
  rfl

/-- C3: the claim says any number of unresolved loop-opens after the scan is a fatal
construction error.  The code only checks the parity of the total bracket count, so
the program `[[` (two unresolved loop-opens) passes construction, and `+[[` even runs
to normal completion with no error at all. -/
theorem bfi_C3_even_unmatched_opens_accepted :
    exOk (loadJumpTable (lex ['[', '['])) = true ∧
    interpret (lex ['+', '[', '[']) [] 10 =
      Except.ok (some { programCursor := 3, memCursor := 0, mem := [1],
                        output := [], input := [] }) :=
  ⟨by decide, rfl⟩

/-- C4 counterexample: in the program `[]+`, the loop-open at index 0 executes with
cell 0; its matching bracket is the loop-close at index 1, but the step leaves the
program cursor at 2, so the token evaluated next is the increment at index 2, not the
matching loop-close — the claim that the matching bracket is itself evaluated next is
false. -/
theorem bfi_C4_counterexample :
    loadJumpTable (lex ['[', ']', '+']) =
      Except.ok (jtInsert (jtInsert jtEmpty 0 1) 1 0) ∧
    (jtInsert (jtInsert jtEmpty 0 1) 1 0) 0 = some 1 ∧
    exec1 (jtInsert (jtInsert jtEmpty 0 1) 1 0) (Token.mk TokenKind.Jmp 1) (initSt []) =
      Except.ok { initSt [] with programCursor := 2 } ∧
    (lex ['[', ']', '+']).get? 2 = some (Token.mk TokenKind.Increment 3) ∧
    (lex ['[', ']', '+']).get? 1 = some (Token.mk TokenKind.Pmj 2) ∧
    (2 : Nat) ≠ 1 :=
  ⟨rfl, rfl, rfl, rfl, rfl, by decide⟩

/-- C4 (amended): for every state in which the jump table maps the program cursor to
`j`, executing a loop-open with current cell 0, or a loop-close with current cell
non-zero, sets the program cursor to `j` and then increments it unconditionally, so
the token at `j + 1` — the one immediately after the matching bracket — is the next
token evaluated; the matching bracket itself is not re-evaluated. -/
theorem bfi_C4_amended (table : JmpTable) (tok : Token) (s : St) (j : Nat)
    (hj : table s.programCursor = some j) :
    (tok.kind = TokenKind.Jmp → readCell s = Except.ok 0 →
      exec1 table tok s = Except.ok { s with programCursor := j + 1 }) ∧
    (tok.kind = TokenKind.Pmj → ∀ v, readCell s = Except.ok v → v ≠ 0 →
      exec1 table tok s = Except.ok { s with programCursor := j + 1 }) := by
  constructor
  · intro hk hv
    simp [exec1, dispatch, hk, hv, hj]
  · intro hk v hv hv0
    simp [exec1, dispatch, hk, hv, hv0, hj]

/-- C4 witness: the amended statement instantiated on the program `[]`'s table, a
loop-open token, and the initial state. -/
theorem bfi_C4_amended_witness :
    (jtInsert (jtInsert jtEmpty 0 1) 1 0) (initSt []).programCursor = some 1 ∧
    (((Token.mk TokenKind.Jmp 1).kind = TokenKind.Jmp →
        readCell (initSt []) = Except.ok 0 →
        exec1 (jtInsert (jtInsert jtEmpty 0 1) 1 0) (Token.mk TokenKind.Jmp 1) (initSt []) =
          Except.ok { initSt [] with programCursor := 1 + 1 }) ∧
      ((Token.mk TokenKind.Jmp 1).kind = TokenKind.Pmj →
        ∀ v, readCell (initSt []) = Except.ok v → v ≠ 0 →
        exec1 (jtInsert (jtInsert jtEmpty 0 1) 1 0) (Token.mk TokenKind.Jmp 1) (initSt []) =
          Except.ok { initSt [] with programCursor := 1 + 1 })) :=
  ⟨rfl, bfi_C4_amended (jtInsert (jtInsert jtEmpty 0 1) 1 0) (Token.mk TokenKind.Jmp 1)
    (initSt []) 1 rfl⟩

set_option maxRecDepth 100000 in
/-- C5 counterexample: a program of 200 increments and one print leaves the cell at
200 but emits the two bytes 195 and 136 (the UTF-8 encoding of code point 200), not
the single byte 200 — the claim that exactly one byte equal to the cell value is
emitted, with no transformation, is false for cell values above 127. -/
theorem bfi_C5_counterexample :
    interpret (lex (List.replicate 200 '+' ++ ['.'])) [] 202 =
      Except.ok (some { programCursor := 201, memCursor := 0, mem := [200],
                        output := [195, 136], input := [] }) ∧
    ([195, 136] : List Nat) ≠ [200] :=
  ⟨rfl, by decide⟩

/-- C5 (amended): every print appends the UTF-8 encoding of the Unicode code point
equal to the current cell value: a single byte equal to the value when it is below
128, and two bytes (`192 + v / 64`, then `128 + v % 64`) when it is 128 to 255. -/
theorem bfi_C5_amended (table : JmpTable) (tok : Token) (s : St) (v : Nat)
    (hk : tok.kind = TokenKind.Print) (hv : readCell s = Except.ok v) :
    dispatch table tok s = Except.ok { s with output := s.output ++ charUtf8 v } ∧
    (v < 128 → charUtf8 v = [v]) ∧
    (128 ≤ v → charUtf8 v = [192 + v / 64, 128 + v % 64]) := by
  refine ⟨by simp [dispatch, hk, hv], fun h => by simp [charUtf8, h], fun h => ?_⟩
  have : ¬ v < 128 := by omega
  simp [charUtf8, this]

/-- C5 witness: the amended statement instantiated on a print token in the initial
state, whose cell value is 0. -/
theorem bfi_C5_amended_witness :
    (Token.mk TokenKind.Print 1).kind = TokenKind.Print ∧
    readCell (initSt []) = Except.ok 0 ∧
    (dispatch jtEmpty (Token.mk TokenKind.Print 1) (initSt []) =
        Except.ok { initSt [] with output := (initSt []).output ++ charUtf8 0 } ∧
      ((0 : Nat) < 128 → charUtf8 0 = [0]) ∧
      (128 ≤ (0 : Nat) → charUtf8 0 = [192 + 0 / 64, 128 + 0 % 64])) :=
  ⟨rfl, rfl, bfi_C5_amended jtEmpty (Token.mk TokenKind.Print 1) (initSt []) 0 rfl rfl⟩

lemma countJmp_cons (t : Token) (ts : List Token) :
    countJmp (t :: ts) = countJmp ts + (if t.kind = TokenKind.Jmp then 1 else 0) := by
  simp [countJmp, List.countP_cons]

lemma countPmj_cons (t : Token) (ts : List Token) :
    countPmj (t :: ts) = countPmj ts + (if t.kind = TokenKind.Pmj then 1 else 0) := by
  simp [countPmj, List.countP_cons]

/-- Success of the jump-table scan depends only on the bracket counts: it succeeds
exactly when no pop meets an empty stack (no split of the remaining tokens puts more
closes than opens plus pending stack entries in front) and the final bracket-count
parity check passes. -/
lemma loadAux_ok_iff (ts : List Token) :
    ∀ (i : Nat) (stack : List Nat) (table : JmpTable) (check : Nat),
      exOk (loadAux ts i stack table check) = true ↔
        ((∀ p q, ts = p ++ q → countPmj p ≤ countJmp p + stack.length) ∧
         (check + (countJmp ts + countPmj ts)) % 2 = 0) := by
  induction ts with
  | nil =>
    intro i stack table check
    constructor
    · intro h
      refine ⟨fun p q hpq => ?_, ?_⟩
      · have hp : p = [] := (List.append_eq_nil.mp hpq.symm).1
        subst hp
        simp [countPmj, countJmp]
      · by_cases hc : check % 2 = 0
        · simpa [countJmp, countPmj] using hc
        · simp [loadAux, exOk, hc] at h
    · rintro ⟨-, hpar⟩
      have hc : check % 2 = 0 := by
        simpa [countJmp, countPmj] using hpar
      simp [loadAux, exOk, hc]
  | cons t ts ih =>
    intro i stack table check
    cases ht : t.kind
    case Jmp =>
      have hl : loadAux (t :: ts) i stack table check
          = loadAux ts (i + 1) (i :: stack) table (check + 1) := by
        simp [loadAux, ht]
      rw [hl, ih (i + 1) (i :: stack) table (check + 1)]
      constructor
      · rintro ⟨h1, h2⟩
        refine ⟨fun p q hpq => ?_, ?_⟩
        · cases p with
          | nil => simp [countPmj, countJmp]
          | cons a p' =>
            rw [List.cons_append] at hpq
            injection hpq with hta hts
            subst hta
            have h3 := h1 p' q hts
            simp only [countPmj_cons, countJmp_cons, ht, List.length_cons] at h3 ⊢
            simp at h3 ⊢
            omega
        · simp only [countPmj_cons, countJmp_cons, ht] at h2 ⊢
          simp at h2 ⊢
          omega
      · rintro ⟨h1, h2⟩
        refine ⟨fun p q hpq => ?_, ?_⟩
        · have h3 := h1 (t :: p) q (by rw [hpq]; rfl)
          simp only [countPmj_cons, countJmp_cons, ht, List.length_cons] at h3 ⊢
          simp at h3 ⊢
          omega
        · simp only [countPmj_cons, countJmp_cons, ht] at h2 ⊢
          simp at h2 ⊢
          omega
    case Pmj =>
      cases stack with
      | nil =>
        have hl : loadAux (t :: ts) i [] table check
            = Except.error (BfError.unmatchedClose i) := by
          simp [loadAux, ht]
        rw [hl]
        constructor
        · intro h
          exact absurd h (by simp [exOk])
        · rintro ⟨h1, -⟩
          have h2 := h1 [t] ts rfl
          rw [countPmj_cons, countJmp_cons] at h2
          simp [ht, countPmj, countJmp] at h2
      | cons s rest =>
        have hl : loadAux (t :: ts) i (s :: rest) table check
            = loadAux ts (i + 1) rest (jtInsert (jtInsert table s i) i s) (check + 1) := by
          simp [loadAux, ht]
        rw [hl, ih (i + 1) rest (jtInsert (jtInsert table s i) i s) (check + 1)]
        constructor
        · rintro ⟨h1, h2⟩
          refine ⟨fun p q hpq => ?_, ?_⟩
          · cases p with
            | nil => simp [countPmj, countJmp]
            | cons a p' =>
              rw [List.cons_append] at hpq
              injection hpq with hta hts
              subst hta
              have h3 := h1 p' q hts
              simp only [countPmj_cons, countJmp_cons, ht, List.length_cons] at h3 ⊢
              simp at h3 ⊢
              omega
          · simp only [countPmj_cons, countJmp_cons, ht] at h2 ⊢
            simp at h2 ⊢
            omega
        · rintro ⟨h1, h2⟩
          refine ⟨fun p q hpq => ?_, ?_⟩
          · have h3 := h1 (t :: p) q (by rw [hpq]; rfl)
            simp only [countPmj_cons, countJmp_cons, ht, List.length_cons] at h3 ⊢
            simp at h3 ⊢
            omega
          · simp only [countPmj_cons, countJmp_cons, ht] at h2 ⊢
            simp at h2 ⊢
            omega
    all_goals
      have hl : loadAux (t :: ts) i stack table check
          = loadAux ts (i + 1) stack table check := by
        simp [loadAux, ht]
      rw [hl, ih (i + 1) stack table check]
      constructor
      · rintro ⟨h1, h2⟩
        refine ⟨fun p q hpq => ?_, ?_⟩
        · cases p with
          | nil => simp [countPmj, countJmp]
          | cons a p' =>
            rw [List.cons_append] at hpq
            injection hpq with hta hts
            subst hta
            have h3 := h1 p' q hts
            simp only [countPmj_cons, countJmp_cons, ht] at h3 ⊢
            simp at h3 ⊢
            omega
        · simp only [countPmj_cons, countJmp_cons, ht] at h2 ⊢
          simp at h2 ⊢
          omega
      · rintro ⟨h1, h2⟩
        refine ⟨fun p q hpq => ?_, ?_⟩
        · have h3 := h1 (t :: p) q (by rw [hpq]; rfl)
          simp only [countPmj_cons, countJmp_cons, ht] at h3 ⊢
          simp at h3 ⊢
          omega
        · simp only [countPmj_cons, countJmp_cons, ht] at h2 ⊢
          simp at h2 ⊢
          omega

/-- Every table produced by the scan is an involution on its keys, provided the
accumulated table already is one, its keys and values are below the current index,
and the pending stack entries are distinct indices below the current one that are
not yet keys.  Each pop inserts the two fresh mappings `s ↦ i` and `i ↦ s`. -/
lemma loadAux_symm (ts : List Token) :
    ∀ (i : Nat) (stack : List Nat) (table : JmpTable) (check : Nat) (t : JmpTable),
      loadAux ts i stack table check = Except.ok t →
      (∀ k v, table k = some v → table v = some k) →
      (∀ k v, table k = some v → k < i ∧ v < i) →
      (∀ x, x ∈ stack → x < i ∧ table x = none) →
      stack.Nodup →
      ∀ k v, t k = some v → t v = some k := by
  induction ts with
  | nil =>
    intro i stack table check t hok h1 _ _ _
    have hteq : table = t := by
      by_cases hc : check % 2 = 0
      · simpa [loadAux, hc] using hok
      · simp [loadAux, hc] at hok
    exact hteq ▸ h1
  | cons t0 ts ih =>
    intro i stack table check t hok h1 h2 h3 h4
    cases ht : t0.kind
    case Jmp =>
      rw [show loadAux (t0 :: ts) i stack table check
          = loadAux ts (i + 1) (i :: stack) table (check + 1) from by simp [loadAux, ht]] at hok
      refine ih (i + 1) (i :: stack) table (check + 1) t hok h1 ?_ ?_ ?_
      · intro k v hkv
        have := h2 k v hkv
        omega
      · intro x hx
        rcases List.mem_cons.mp hx with rfl | hx'
        · refine ⟨Nat.lt_succ_self x, ?_⟩
          cases hti : table x with
          | none => rfl
          | some w =>
            have := (h2 x w hti).1
            omega
        · have := h3 x hx'
          exact ⟨by omega, this.2⟩
      · refine List.nodup_cons.mpr ⟨?_, h4⟩
        intro hmem
        have := (h3 i hmem).1
        omega
    case Pmj =>
      cases stack with
      | nil =>
        rw [show loadAux (t0 :: ts) i [] table check
            = Except.error (BfError.unmatchedClose i) from by simp [loadAux, ht]] at hok
        cases hok
      | cons s rest =>
        rw [show loadAux (t0 :: ts) i (s :: rest) table check
            = loadAux ts (i + 1) rest (jtInsert (jtInsert table s i) i s) (check + 1) from by
          simp [loadAux, ht]] at hok
        have hsi : s < i := (h3 s (List.mem_cons_self s rest)).1
        have hsnone : table s = none := (h3 s (List.mem_cons_self s rest)).2
        have hnodup := List.nodup_cons.mp h4
        refine ih (i + 1) rest (jtInsert (jtInsert table s i) i s) (check + 1) t hok
          ?_ ?_ ?_ hnodup.2
        · intro k v hkv
          by_cases hki : k = i
          · subst hki
            have hv : v = s := by
              simp [jtInsert] at hkv
              omega
            subst hv
            simp [jtInsert, show v ≠ k from by omega]
          · by_cases hks : k = s
            · subst hks
              have hv : v = i := by
                simp [jtInsert, hki] at hkv
                omega
              subst hv
              simp [jtInsert]
            · have hkv' : table k = some v := by
                simpa [jtInsert, hki, hks] using hkv
              have hvk := h1 k v hkv'
              have hb := h2 k v hkv'
              have hvi : v ≠ i := by omega
              have hvs : v ≠ s := by
                intro he
                rw [he, hsnone] at hvk
                cases hvk
              simpa [jtInsert, hvi, hvs] using hvk
        · intro k v hkv
          by_cases hki : k = i
          · subst hki
            have hv : v = s := by
              simp [jtInsert] at hkv
              omega
            omega
          · by_cases hks : k = s
            · subst hks
              have hv : v = i := by
                simp [jtInsert, hki] at hkv
                omega
              omega
            · have hkv' : table k = some v := by
                simpa [jtInsert, hki, hks] using hkv
              have := h2 k v hkv'
              omega
        · intro x hx
          have hxlt := (h3 x (List.mem_cons_of_mem s hx)).1
          have hxnone := (h3 x (List.mem_cons_of_mem s hx)).2
          have hxs : x ≠ s := fun he => hnodup.1 (he ▸ hx)
          have hxi : x ≠ i := by omega
          refine ⟨by omega, ?_⟩
          simpa [jtInsert, hxi, hxs] using hxnone
    all_goals
      rw [show loadAux (t0 :: ts) i stack table check
          = loadAux ts (i + 1) stack table check from by simp [loadAux, ht]] at hok
      refine ih (i + 1) stack table check t hok h1 ?_ ?_ h4
      · intro k v hkv
        have := h2 k v hkv
        omega
      · intro x hx
        have := h3 x hx
        exact ⟨by omega, this.2⟩

/-- A depth-scan that succeeds from depth `d` has exactly `d` more closes than opens
overall, and no split puts more closes than opens plus `d` in front. -/
lemma balancedAux_props (ts : List Token) :
    ∀ d : Nat, balancedAux ts d = true →
      countPmj ts = countJmp ts + d ∧
      ∀ p q, ts = p ++ q → countPmj p ≤ countJmp p + d := by
  induction ts with
  | nil =>
    intro d h
    have hd : d = 0 := by simpa [balancedAux] using h
    subst hd
    refine ⟨by simp [countPmj, countJmp], fun p q hpq => ?_⟩
    have hp : p = [] := (List.append_eq_nil.mp hpq.symm).1
    subst hp
    simp [countPmj, countJmp]
  | cons t ts ih =>
    intro d h
    cases ht : t.kind
    case Jmp =>
      rw [show balancedAux (t :: ts) d = balancedAux ts (d + 1) from by
        simp [balancedAux, ht]] at h
      obtain ⟨hc, hp⟩ := ih (d + 1) h
      refine ⟨?_, fun p q hpq => ?_⟩
      · rw [countPmj_cons, countJmp_cons]
        simp [ht]
        omega
      · cases p with
        | nil => simp [countPmj, countJmp]
        | cons a p' =>
          rw [List.cons_append] at hpq
          injection hpq with hta hts
          subst hta
          have h3 := hp p' q hts
          rw [countPmj_cons, countJmp_cons]
          simp [ht]
          omega
    case Pmj =>
      rw [show balancedAux (t :: ts) d = (decide (0 < d) && balancedAux ts (d - 1)) from by
        simp [balancedAux, ht]] at h
      obtain ⟨hd, hb⟩ : 0 < d ∧ balancedAux ts (d - 1) = true := by simpa using h
      obtain ⟨hc, hp⟩ := ih (d - 1) hb
      refine ⟨?_, fun p q hpq => ?_⟩
      · rw [countPmj_cons, countJmp_cons]
        simp [ht]
        omega
      · cases p with
        | nil => simp [countPmj, countJmp]
        | cons a p' =>
          rw [List.cons_append] at hpq
          injection hpq with hta hts
          subst hta
          have h3 := hp p' q hts
          rw [countPmj_cons, countJmp_cons]
          simp [ht]
          omega
    all_goals
      rw [show balancedAux (t :: ts) d = balancedAux ts d from by
        simp [balancedAux, ht]] at h
      obtain ⟨hc, hp⟩ := ih d h
      refine ⟨?_, fun p q hpq => ?_⟩
      · rw [countPmj_cons, countJmp_cons]
        simp [ht]
        omega
      · cases p with
        | nil => simp [countPmj, countJmp]
        | cons a p' =>
          rw [List.cons_append] at hpq
          injection hpq with hta hts
          subst hta
          have h3 := hp p' q hts
          rw [countPmj_cons, countJmp_cons]
          simp [ht]
          omega

/-- C7: every token sequence in which some loop-close is reached with no pending
loop-open (that is, some split of the sequence has more closes than opens in front)
makes jump-table construction fail fatally, and `interpret` then returns that very
error before any execution step runs. -/
theorem bfi_C7_unmatched_close_fatal (ts : List Token)
    (h : ∃ p q, ts = p ++ q ∧ countJmp p < countPmj p) :
    ∃ e, loadJumpTable ts = Except.error e ∧
      ∀ input fuel, interpret ts input fuel = Except.error e := by
  have hnok : exOk (loadJumpTable ts) = false := by
    cases hok : exOk (loadJumpTable ts) with
    | false => rfl
    | true =>
      exfalso
      rw [loadJumpTable, loadAux_ok_iff] at hok
      obtain ⟨p, q, hpq, hcount⟩ := h
      have h2 := hok.1 p q hpq
      simp at h2
      omega
  cases hlt : loadJumpTable ts with
  | ok t =>
    rw [hlt] at hnok
    simp [exOk] at hnok
  | error e =>
    exact ⟨e, rfl, fun input fuel => by simp [interpret, hlt]⟩

/-- C7 witness: the single-token program `]` is rejected before execution. -/
theorem bfi_C7_witness :
    (∃ p q, lex [']'] = p ++ q ∧ countJmp p < countPmj p) ∧
    ∃ e, loadJumpTable (lex [']']) = Except.error e ∧
      ∀ input fuel, interpret (lex [']']) input fuel = Except.error e :=
  have h : ∃ p q, lex [']'] = p ++ q ∧ countJmp p < countPmj p :=
    ⟨lex [']'], [], by simp, by decide⟩
  ⟨h, bfi_C7_unmatched_close_fatal (lex [']']) h⟩

/-- C10: jump-table construction succeeds exactly when no split of the token
sequence has more loop-closes than loop-opens in front and the total bracket count
is even; in particular `[[` (an even number of unmatched loop-opens) is accepted
with a jump table that has no entry for either loop-open index. -/
theorem bfi_C10_parity_acceptance :
    (∀ ts : List Token, exOk (loadJumpTable ts) = true ↔
      ((∀ p q, ts = p ++ q → countPmj p ≤ countJmp p) ∧
       (countJmp ts + countPmj ts) % 2 = 0)) ∧
    loadJumpTable (lex ['[', '[']) = Except.ok jtEmpty ∧
    jtEmpty 0 = none ∧ jtEmpty 1 = none := by
  refine ⟨fun ts => ?_, rfl, rfl, rfl⟩
  rw [loadJumpTable, loadAux_ok_iff]
  constructor
  · rintro ⟨h1, h2⟩
    exact ⟨fun p q hpq => by simpa using h1 p q hpq, by omega⟩
  · rintro ⟨h1, h2⟩
    exact ⟨fun p q hpq => by simpa using h1 p q hpq, by omega⟩

set_option maxRecDepth 100000 in
/-- C8: increment rewrites the current cell `v` to `(v + 1) % 256` and decrement to
`(v + 255) % 256` — which equals `(v - 1) mod 256` in integer arithmetic for byte
values — touching nothing else in the state, and 256 consecutive applications of the
increment map return every byte value to itself. -/
theorem bfi_C8_cell_wraparound (table : JmpTable) (tok : Token) (s : St) (v : Nat)
    (hv : readCell s = Except.ok v) :
    (tok.kind = TokenKind.Increment →
      dispatch table tok s =
        Except.ok { s with mem := s.mem.set s.memCursor ((v + 1) % 256) }) ∧
    (tok.kind = TokenKind.Decrement →
      dispatch table tok s =
        Except.ok { s with mem := s.mem.set s.memCursor ((v + 255) % 256) }) ∧
    (v < 256 → (v + 255) % 256 = (((v : Int) - 1) % 256).toNat) ∧
    (∀ c : Nat, c < 256 → Nat.iterate (fun x => (x + 1) % 256) 256 c = c) := by
  have hlt : s.memCursor < s.mem.length := by
    unfold readCell at hv
    split at hv
    · assumption
    · simp at hv
  refine ⟨fun hk => ?_, fun hk => ?_, fun h => ?_, ?_⟩
  · simp [dispatch, hk, hv, writeCell, hlt]
  · simp [dispatch, hk, hv, writeCell, hlt]
  · omega
  · decide

set_option maxRecDepth 100000 in
/-- C8 witness: the wraparound statement instantiated on an increment token in the
initial state, whose cell value is 0. -/
theorem bfi_C8_witness :
    readCell (initSt []) = Except.ok 0 ∧
    (((Token.mk TokenKind.Increment 1).kind = TokenKind.Increment →
        dispatch jtEmpty (Token.mk TokenKind.Increment 1) (initSt []) =
          Except.ok { initSt [] with
            mem := (initSt []).mem.set (initSt []).memCursor ((0 + 1) % 256) }) ∧
      ((Token.mk TokenKind.Increment 1).kind = TokenKind.Decrement →
        dispatch jtEmpty (Token.mk TokenKind.Increment 1) (initSt []) =
          Except.ok { initSt [] with
            mem := (initSt []).mem.set (initSt []).memCursor ((0 + 255) % 256) }) ∧
      ((0 : Nat) < 256 → (0 + 255) % 256 = ((((0 : Nat) : Int) - 1) % 256).toNat) ∧
      (∀ c : Nat, c < 256 → Nat.iterate (fun x => (x + 1) % 256) 256 c = c)) :=
  ⟨rfl, bfi_C8_cell_wraparound jtEmpty (Token.mk TokenKind.Increment 1) (initSt []) 0 rfl⟩

/-- A character is recognized by `identify` exactly when it belongs to the
8-character operator alphabet. -/
lemma identify_isSome (c : Char) : (identify c).isSome = decide (c ∈ opAlphabet) := by
  unfold identify
  split <;> simp_all [opAlphabet]

/-- The lexer scan from position `p` pairs each character with its position counted
from `p` and keeps exactly the recognized ones, in input order. -/
lemma lexAux_enumFrom (s : List Char) :
    ∀ p : Nat, lexAux s p = (List.enumFrom p s).filterMap
      (fun pc => (identify pc.2).map (fun k => Token.mk k pc.1)) := by
  induction s with
  | nil => intro p; rfl
  | cons c cs ih =>
    intro p
    cases h : identify c with
    | some k =>
      simp [lexAux, h, List.enumFrom, List.filterMap_cons, ih (p + 1)]
    | none =>
      simp [lexAux, h, List.enumFrom, List.filterMap_cons, ih (p + 1)]

/-- The number of tokens produced by the scan equals the number of recognized
characters. -/
lemma lexAux_length (s : List Char) :
    ∀ p : Nat, (lexAux s p).length = s.countP (fun c => (identify c).isSome) := by
  induction s with
  | nil => intro p; rfl
  | cons c cs ih =>
    intro p
    cases h : identify c with
    | some k => simp [lexAux, h, List.countP_cons, ih (p + 1)]
    | none => simp [lexAux, h, List.countP_cons, ih (p + 1)]

/-- C9: lexing is total (it is a function and cannot fail), produces the tokens of
the recognized characters in input order — each token's recorded position being the
1-based index of its character among all scanned characters, the counter advancing
on every character whether recognized or not — and the token count equals the number
of characters drawn from the 8-character operator alphabet. -/
theorem bfi_C9_lexing_total (s : List Char) :
    lex s = (List.enumFrom 1 s).filterMap
      (fun pc => (identify pc.2).map (fun k => Token.mk k pc.1)) ∧
    (lex s).length = s.countP (fun c => decide (c ∈ opAlphabet)) := by
  constructor
  · exact lexAux_enumFrom s 1
  · rw [lex, lexAux_length s 1]
    have hfun : (fun c => (identify c).isSome) = (fun c : Char => decide (c ∈ opAlphabet)) :=
      funext identify_isSome
    rw [hfun]

lemma run_step (table : JmpTable) (ts : List Token) (fuel : Nat) (s s' : St) (tok : Token)
    (hget : ts.get? s.programCursor = some tok)
    (hstep : exec1 table tok s = Except.ok s') :
    run table ts (fuel + 1) s = run table ts fuel s' := by
  simp only [run, hget, hstep]

lemma run_halt (table : JmpTable) (ts : List Token) (fuel : Nat) (s : St)
    (hget : ts.get? s.programCursor = none) :
    run table ts (fuel + 1) s = Except.ok (some s) := by
  simp only [run, hget]

/-- Lexing a run of `n` move-left characters yields `n` tokens, all move-left. -/
lemma lex_replicate_moveLeft (n : Nat) :
    ∀ p, (lexAux (List.replicate n '<') p).length = n ∧
      ∀ t ∈ lexAux (List.replicate n '<') p, t.kind = TokenKind.MoveLeft := by
  induction n with
  | zero => intro p; simp [List.replicate, lexAux]
  | succ n ih =>
    intro p
    rw [List.replicate_succ]
    rw [show lexAux ('<' :: List.replicate n '<') p
        = Token.mk TokenKind.MoveLeft p :: lexAux (List.replicate n '<') (p + 1) from rfl]
    refine ⟨by simpa using (ih (p + 1)).1, ?_⟩
    intro t htm
    rcases List.mem_cons.mp htm with rfl | hmem
    · rfl
    · exact (ih (p + 1)).2 t hmem

/-- A token sequence with no brackets leaves the table and the parity check alone. -/
lemma loadAux_no_brackets (ts : List Token) :
    ∀ (i : Nat) (stack : List Nat) (table : JmpTable) (check : Nat),
      (∀ t ∈ ts, t.kind ≠ TokenKind.Jmp ∧ t.kind ≠ TokenKind.Pmj) →
      loadAux ts i stack table check
        = if check % 2 ≠ 0 then Except.error BfError.oddBrackets else Except.ok table := by
  induction ts with
  | nil => intro i stack table check _; rfl
  | cons t ts ih =>
    intro i stack table check h
    have ht := h t (List.mem_cons_self t ts)
    cases htk : t.kind
    case Jmp => exact absurd htk ht.1
    case Pmj => exact absurd htk ht.2
    all_goals
      rw [show loadAux (t :: ts) i stack table check
          = loadAux ts (i + 1) stack table check from by simp [loadAux, htk]]
      exact ih (i + 1) stack table check (fun t' h' => h t' (List.mem_cons_of_mem t h'))

/-- Running a sequence of move-left tokens from program cursor `k ≥ 1` and tape
cursor `2 ^ 64 - k` keeps decrementing the (already underflowed) tape cursor without
ever touching the tape again. -/
lemma run_moveLefts (ts : List Token) (h : ∀ t ∈ ts, t.kind = TokenKind.MoveLeft)
    (hlen : ts.length < USIZE) (table : JmpTable) (m out inp : List Nat) :
    ∀ (fuel k : Nat), k ≤ ts.length → 0 < k → ts.length - k < fuel →
      run table ts fuel
        { programCursor := k, memCursor := USIZE - k, mem := m, output := out, input := inp }
      = Except.ok (some { programCursor := ts.length, memCursor := USIZE - ts.length,
                          mem := m, output := out, input := inp }) := by
  intro fuel
  induction fuel with
  | zero => intro k _ _ hf; omega
  | succ fuel ih =>
    intro k hk1 hk0 hf
    by_cases hke : k = ts.length
    · subst hke
      exact run_halt table ts fuel _ (List.get?_eq_none.mpr (le_refl _))
    · have hklt : k < ts.length := by omega
      have hget : ts.get? k = some (ts.get ⟨k, hklt⟩) := List.get?_eq_get hklt
      have htk : (ts.get ⟨k, hklt⟩).kind = TokenKind.MoveLeft :=
        h _ (List.get_mem ts k hklt)
      have hkU : k < USIZE := by omega
      have hne : USIZE - k ≠ 0 := by omega
      have hmod : (USIZE - k + (USIZE - 1)) % USIZE = USIZE - (k + 1) := by
        have h1 : USIZE - k + (USIZE - 1) = (USIZE - (k + 1)) + USIZE := by omega
        rw [h1, Nat.add_mod_right]
        exact Nat.mod_eq_of_lt (by omega)
      have hdisp : dispatch table (ts.get ⟨k, hklt⟩)
          { programCursor := k, memCursor := USIZE - k, mem := m, output := out, input := inp }
          = Except.ok { programCursor := k, memCursor := USIZE - (k + 1),
                        mem := m, output := out, input := inp } := by
        simp only [dispatch, htk]
        rw [if_neg hne, hmod]
      have hstep : exec1 table (ts.get ⟨k, hklt⟩)
          { programCursor := k, memCursor := USIZE - k, mem := m, output := out, input := inp }
          = Except.ok { programCursor := k + 1, memCursor := USIZE - (k + 1),
                        mem := m, output := out, input := inp } := by
        simp only [exec1, hdisp]
      rw [run_step table ts fuel _ _ _ hget hstep]
      exact ih (k + 1) (by omega) (by omega) (by omega)

/-- Running the 1000-move-left program: the first step inserts the one new cell and
underflows the cursor, the remaining 999 steps only decrement the wrapped cursor. -/
lemma interpret_thousand_moveLefts :
    interpret (lex (List.replicate 1000 '<')) [] 1001 =
      Except.ok (some { programCursor := 1000, memCursor := USIZE - 1000,
                        mem := [0, 0], output := [], input := [] }) := by
  have hlen : (lex (List.replicate 1000 '<')).length = 1000 :=
    (lex_replicate_moveLeft 1000 1).1
  have hts : ∀ t ∈ lex (List.replicate 1000 '<'), t.kind = TokenKind.MoveLeft :=
    (lex_replicate_moveLeft 1000 1).2
  have hU : 1000 < USIZE := by decide
  have hnob : ∀ t ∈ lex (List.replicate 1000 '<'),
      t.kind ≠ TokenKind.Jmp ∧ t.kind ≠ TokenKind.Pmj := by
    intro t ht
    rw [hts t ht]
    exact ⟨by decide, by decide⟩
  have hload : loadJumpTable (lex (List.replicate 1000 '<')) = Except.ok jtEmpty := by
    rw [loadJumpTable, loadAux_no_brackets _ 0 [] jtEmpty 0 hnob]
    simp
  have h0lt : 0 < (lex (List.replicate 1000 '<')).length := by omega
  have hget0 : (lex (List.replicate 1000 '<')).get? 0
      = some ((lex (List.replicate 1000 '<')).get ⟨0, h0lt⟩) := List.get?_eq_get h0lt
  have htk0 : ((lex (List.replicate 1000 '<')).get ⟨0, h0lt⟩).kind = TokenKind.MoveLeft :=
    hts _ (List.get_mem _ 0 h0lt)
  have hdisp0 : dispatch jtEmpty ((lex (List.replicate 1000 '<')).get ⟨0, h0lt⟩) (initSt [])
      = Except.ok { programCursor := 0, memCursor := USIZE - 1, mem := [0, 0],
                    output := [], input := [] } := by
    simp only [dispatch, htk0]
    rfl
  have hstep0 : exec1 jtEmpty ((lex (List.replicate 1000 '<')).get ⟨0, h0lt⟩) (initSt [])
      = Except.ok { programCursor := 1, memCursor := USIZE - 1, mem := [0, 0],
                    output := [], input := [] } := by
    simp only [exec1, hdisp0]
  simp only [interpret, hload]
  rw [show (1001 : Nat) = 1000 + 1 from rfl]
  rw [run_step jtEmpty _ 1000 _ _ _ hget0 hstep0]
  have hfin := run_moveLefts (lex (List.replicate 1000 '<')) hts (by omega) jtEmpty
    [0, 0] [] [] 1000 1 (by omega) (by omega) (by omega)
  rw [hlen] at hfin
  exact hfin

/-- C1: the claim says a move-left at tape cursor 0 inserts a zero cell and leaves
the cursor at 0, so that 1000 move-lefts from the initial tape end with the cursor
at 0 of a 1001-cell tape.  Evaluating the code on `<` shows the insert happens but
the unconditional `mem_cursor -= 1` then underflows the cursor (wrapping to
`2 ^ 64 - 1` under release semantics; a debug build aborts instead), and the
1000-move-left program ends with the cursor at `2 ^ 64 - 1000 ≠ 0` on a tape of 2
cells, not 1001. -/
theorem bfi_C1_move_left_underflow :
    (interpret (lex ['<']) [] 2 =
      Except.ok (some { programCursor := 1, memCursor := 18446744073709551615,
                        mem := [0, 0], output := [], input := [] }) ∧
     (18446744073709551615 : Nat) ≠ 0) ∧
    (interpret (lex (List.replicate 1000 '<')) [] 1001 =
      Except.ok (some { programCursor := 1000, memCursor := USIZE - 1000,
                        mem := [0, 0], output := [], input := [] }) ∧
     USIZE - 1000 ≠ 0 ∧ ([0, 0] : List Nat).length ≠ 1001) :=
  ⟨⟨rfl, by decide⟩, interpret_thousand_moveLefts, by decide, by decide⟩

lemma countJmp_append (A B : List Token) :
    countJmp (A ++ B) = countJmp A + countJmp B := by
  simp [countJmp, List.countP_append]

lemma countPmj_append (A B : List Token) :
    countPmj (A ++ B) = countPmj A + countPmj B := by
  simp [countPmj, List.countP_append]

/-- Converse of `balancedAux_props`: the depth scan succeeds whenever the counts
close exactly `d` more than they open and no split closes more than it has opened. -/
lemma balancedAux_of_counts (ts : List Token) :
    ∀ d : Nat, countPmj ts = countJmp ts + d →
      (∀ p q, ts = p ++ q → countPmj p ≤ countJmp p + d) →
      balancedAux ts d = true := by
  induction ts with
  | nil =>
    intro d hc _
    have : d = 0 := by
      simp [countPmj, countJmp] at hc
      omega
    simp [balancedAux, this]
  | cons t ts ih =>
    intro d hc hp
    cases ht : t.kind
    case Jmp =>
      rw [show balancedAux (t :: ts) d = balancedAux ts (d + 1) from by
        simp [balancedAux, ht]]
      refine ih (d + 1) ?_ ?_
      · rw [countPmj_cons, countJmp_cons] at hc
        simp [ht] at hc
        omega
      · intro p q hpq
        have h3 := hp (t :: p) q (by rw [hpq]; rfl)
        rw [countPmj_cons, countJmp_cons] at h3
        simp [ht] at h3
        omega
    case Pmj =>
      have hd : 0 < d := by
        have h3 := hp [t] ts rfl
        rw [countPmj_cons, countJmp_cons] at h3
        simp [ht, countPmj, countJmp] at h3
        omega
      rw [show balancedAux (t :: ts) d = (decide (0 < d) && balancedAux ts (d - 1)) from by
        simp [balancedAux, ht]]
      refine (Bool.and_eq_true _ _).mpr ⟨by simpa using hd, ?_⟩
      refine ih (d - 1) ?_ ?_
      · rw [countPmj_cons, countJmp_cons] at hc
        simp [ht] at hc
        omega
      · intro p q hpq
        have h3 := hp (t :: p) q (by rw [hpq]; rfl)
        rw [countPmj_cons, countJmp_cons] at h3
        simp [ht] at h3
        omega
    all_goals
      rw [show balancedAux (t :: ts) d = balancedAux ts d from by
        simp [balancedAux, ht]]
      refine ih d ?_ ?_
      · rw [countPmj_cons, countJmp_cons] at hc
        simp [ht] at hc
        omega
      · intro p q hpq
        have h3 := hp (t :: p) q (by rw [hpq]; rfl)
        rw [countPmj_cons, countJmp_cons] at h3
        simp [ht] at h3
        omega

lemma seg_self_succ (full : List Token) (p : Nat) : seg full p (p + 1) = [] := by
  apply List.drop_eq_nil_of_le
  simp [seg, List.length_take]

lemma seg_snoc (full : List Token) (s p : Nat) (hsp : s < p) (hp : p < full.length) :
    seg full s (p + 1) = seg full s p ++ [full.get ⟨p, hp⟩] := by
  rw [seg, seg, List.take_succ]
  rw [show full[p]? = some (full.get ⟨p, hp⟩) from by
    rw [List.getElem?_eq_getElem hp]
    rfl]
  rw [List.drop_append_eq_append_drop]
  have hlen : (full.take p).length = p := by
    simp [List.length_take]
    omega
  rw [hlen, show s + 1 - p = 0 from by omega]
  rfl

lemma seg_split (full : List Token) (i j j' : Nat) (hij : i < j) (hjj : j < j')
    (hj : j < full.length) :
    seg full i j' = seg full i j ++ full.get ⟨j, hj⟩ :: seg full j j' := by
  rw [seg, seg, seg]
  conv_lhs => rw [← List.take_append_drop j (full.take j')]
  rw [List.take_take, min_eq_left (le_of_lt hjj)]
  rw [List.drop_append_eq_append_drop]
  have hlen : (full.take j).length = j := by
    simp [List.length_take]
    omega
  rw [hlen, show i + 1 - j = 0 from by omega, List.drop_zero]
  congr 1
  have hjlen : j < (full.take j').length := by
    simp [List.length_take]
    omega
  rw [List.drop_eq_getElem_cons hjlen]
  congr 1
  exact List.getElem_take _

lemma countJmp_singleton (t : Token) :
    countJmp [t] = if t.kind = TokenKind.Jmp then 1 else 0 := by
  rw [show [t] = t :: [] from rfl, countJmp_cons]
  simp [countJmp]

lemma countPmj_singleton (t : Token) :
    countPmj [t] = if t.kind = TokenKind.Pmj then 1 else 0 := by
  rw [show [t] = t :: [] from rfl, countPmj_cons]
  simp [countPmj]

/-- Appending a non-bracket token preserves balancedness. -/
lemma balanced_append_single (A : List Token) (t0 : Token)
    (hA : balanced A = true) (h1 : t0.kind ≠ TokenKind.Jmp) (h2 : t0.kind ≠ TokenKind.Pmj) :
    balanced (A ++ [t0]) = true := by
  obtain ⟨hc, hp⟩ := balancedAux_props A 0 hA
  refine balancedAux_of_counts (A ++ [t0]) 0 ?_ ?_
  · rw [countPmj_append, countJmp_append, countPmj_singleton, countJmp_singleton,
      if_neg h1, if_neg h2]
    omega
  · intro p q hpq
    rcases List.append_eq_append_iff.mp hpq with ⟨r, hr1, hr2⟩ | ⟨r, hr1, hr2⟩
    · rcases r with - | ⟨t1, r2⟩
      · subst hr1
        have := hp A [] (by simp)
        simpa using this
      · rw [List.cons_append] at hr2
        injection hr2 with ht1 hr3
        have hr2nil : r2 = [] := by
          cases r2 with
          | nil => rfl
          | cons a b => simp at hr3
        subst ht1
        subst hr2nil
        subst hr1
        rw [countPmj_append, countJmp_append, countPmj_singleton, countJmp_singleton,
          if_neg h1, if_neg h2]
        have := hp A [] (by simp)
        simp at this
        omega
    · exact hp p r hr1
  
/-- Wrapping a balanced block in a bracket pair after another balanced block keeps
the whole balanced: `A ++ [open] ++ B ++ [close]` is balanced when `A` and `B` are. -/
lemma balanced_wrap (A B : List Token) (tOpen tc : Token)
    (hA : balanced A = true) (hB : balanced B = true)
    (hto : tOpen.kind = TokenKind.Jmp) (htc : tc.kind = TokenKind.Pmj) :
    balanced (A ++ tOpen :: (B ++ [tc])) = true := by
  obtain ⟨hcA, hpA⟩ := balancedAux_props A 0 hA
  obtain ⟨hcB, hpB⟩ := balancedAux_props B 0 hB
  refine balancedAux_of_counts _ 0 ?_ ?_
  · rw [countPmj_append, countJmp_append, countPmj_cons, countJmp_cons,
      countPmj_append, countJmp_append, countPmj_singleton, countJmp_singleton]
    rw [hto, htc]
    simp
    omega
  · intro p q hpq
    rcases List.append_eq_append_iff.mp hpq with ⟨r, hr1, hr2⟩ | ⟨r, hr1, hr2⟩
    · rcases r with - | ⟨t1, r2⟩
      · subst hr1
        simp only [List.append_nil]
        omega
      · rw [List.cons_append] at hr2
        injection hr2 with ht1 hr3
        subst ht1
        subst hr1
        rcases List.append_eq_append_iff.mp hr3 with ⟨r3, hs1, hs2⟩ | ⟨r3, hs1, hs2⟩
        · rcases r3 with - | ⟨t2, r4⟩
          · subst hs1
            rw [countPmj_append, countJmp_append, countPmj_cons, countJmp_cons]
            rw [hto]
            simp
            omega
          · rw [List.cons_append] at hs2
            injection hs2 with ht2 hs3
            have hr4nil : r4 = [] := by
              cases r4 with
              | nil => rfl
              | cons a b => simp at hs3
            subst ht2
            subst hr4nil
            subst hs1
            rw [countPmj_append, countJmp_append, countPmj_cons, countJmp_cons]
            rw [hto]
            rw [countPmj_append, countJmp_append, countPmj_singleton, countJmp_singleton]
            rw [htc]
            simp
            omega
        · subst hs1
          have h4 := hpB r2 r3 rfl
          rw [countPmj_append, countJmp_append, countPmj_cons, countJmp_cons]
          rw [hto]
          simp
          omega
    · exact hpA p r hr1

lemma kindAt_append_cons (done : List Token) (t0 : Token) (rest : List Token) :
    kindAt (done ++ t0 :: rest) done.length = some t0.kind := by
  rw [kindAt, List.get?_append_right (le_refl done.length)]
  simp

lemma kindAt_get (ts : List Token) (n : Nat) (h : n < ts.length) :
    kindAt ts n = some ((ts.get ⟨n, h⟩).kind) := by
  rw [kindAt, List.get?_eq_get h]
  rfl

lemma kindAt_lt (ts : List Token) (n : Nat) (k : TokenKind) (h : kindAt ts n = some k) :
    n < ts.length := by
  by_contra hn
  rw [kindAt, List.get?_eq_none.mpr (by omega)] at h
  simp at h


/-- Invariant induction for the jump-table scan: provided the accumulated table
pairs only matched brackets, the pending stack satisfies the segment invariant, and
every already-scanned loop-open is pending or paired, a successful scan yields a
table that pairs only matched brackets and — when the whole program is balanced —
has an entry for every loop-open position. -/
lemma loadAux_pairs (full : List Token) :
    ∀ (rest done : List Token) (stack : List Nat) (table : JmpTable) (check : Nat)
      (t : JmpTable),
      full = done ++ rest →
      loadAux rest done.length stack table check = Except.ok t →
      segsOk full done.length stack →
      (∀ k v, table k = some v → matchedPair full k v ∨ matchedPair full v k) →
      (∀ x, x < done.length → kindAt full x = some TokenKind.Jmp →
        x ∈ stack ∨ ∃ v, table x = some v) →
      stack.length + countPmj done = countJmp done →
      ((∀ k v, t k = some v → matchedPair full k v ∨ matchedPair full v k) ∧
       (balanced full = true →
         ∀ x, kindAt full x = some TokenKind.Jmp → ∃ v, t x = some v)) := by
  intro rest
  induction rest with
  | nil =>
    intro done stack table check t hfull hok hsegs htable hopen hcount
    have hdone : done = full := by rw [hfull, List.append_nil]
    have hteq : table = t := by
      by_cases hc : check % 2 = 0
      · simpa [loadAux, hc] using hok
      · simp [loadAux, hc] at hok
    subst hteq
    refine ⟨htable, fun hb x hkx => ?_⟩
    have hxlt : x < full.length := kindAt_lt full x _ hkx
    have hstack : stack = [] := by
      obtain ⟨hc, -⟩ := balancedAux_props full 0 hb
      rw [hdone] at hcount
      have : stack.length = 0 := by omega
      exact List.length_eq_zero.mp this
    rcases hopen x (by rw [hdone]; exact hxlt) hkx with hmem | hv
    · rw [hstack] at hmem
      exact absurd hmem (List.not_mem_nil x)
    · exact hv
  | cons t0 rest ih =>
    intro done stack table check t hfull hok hsegs htable hopen hcount
    have hp_lt : done.length < full.length := by
      rw [hfull, List.length_append]
      simp
    have hkp : kindAt full done.length = some t0.kind := by
      rw [hfull]
      exact kindAt_append_cons done t0 rest
    have htokP : (full.get ⟨done.length, hp_lt⟩).kind = t0.kind := by
      have h1 := kindAt_get full done.length hp_lt
      rw [hkp] at h1
      injection h1 with h2
      exact h2.symm
    have hfull' : full = (done ++ [t0]) ++ rest := by
      rw [hfull]
      simp
    have hlen1 : (done ++ [t0]).length = done.length + 1 := by simp
    cases ht : t0.kind
    case Jmp =>
      rw [show loadAux (t0 :: rest) done.length stack table check
          = loadAux rest (done.length + 1) (done.length :: stack) table (check + 1) from by
        simp [loadAux, ht]] at hok
      refine ih (done ++ [t0]) (done.length :: stack) table (check + 1) t hfull'
        (by rw [hlen1]; exact hok) ?_ htable ?_ ?_
      · rw [hlen1]
        refine ⟨Nat.lt_succ_self _, ?_, ?_, hsegs⟩
        · rw [hkp, ht]
        · rw [seg_self_succ]
          rfl
      · intro x hx hkx
        rw [hlen1] at hx
        by_cases hxp : x = done.length
        · exact Or.inl (by rw [hxp]; exact List.mem_cons_self _ _)
        · rcases hopen x (by omega) hkx with hmem | hv
          · exact Or.inl (List.mem_cons_of_mem _ hmem)
          · exact Or.inr hv
      · rw [countPmj_append, countJmp_append, countPmj_singleton, countJmp_singleton, ht]
        simp at hcount ⊢
        omega
    case Pmj =>
      cases stack with
      | nil =>
        rw [show loadAux (t0 :: rest) done.length [] table check
            = Except.error (BfError.unmatchedClose done.length) from by
          simp [loadAux, ht]] at hok
        cases hok
      | cons s stack2 =>
        rw [show loadAux (t0 :: rest) done.length (s :: stack2) table check
            = loadAux rest (done.length + 1) stack2
                (jtInsert (jtInsert table s done.length) done.length s) (check + 1) from by
          simp [loadAux, ht]] at hok
        obtain ⟨hs_lt, hs_kind, hs_bal, hsegs2⟩ := hsegs
        have hs_full : s < full.length := by omega
        have hmp : matchedPair full s done.length :=
          ⟨hs_lt, hs_kind, by rw [hkp, ht], hs_bal⟩
        refine ih (done ++ [t0]) stack2
          (jtInsert (jtInsert table s done.length) done.length s) (check + 1) t hfull'
          (by rw [hlen1]; exact hok) ?_ ?_ ?_ ?_
        · rw [hlen1]
          cases stack2 with
          | nil => exact True.intro
          | cons s2 stack3 =>
            obtain ⟨hs2_lt, hs2_kind, hs2_bal, hsegs3⟩ := hsegs2
            refine ⟨by omega, hs2_kind, ?_, hsegs3⟩
            have htokS : (full.get ⟨s, hs_full⟩).kind = TokenKind.Jmp := by
              have h1 := kindAt_get full s hs_full
              rw [hs_kind] at h1
              injection h1 with h2
              exact h2.symm
            rw [seg_split full s2 s (done.length + 1) hs2_lt (by omega) hs_full]
            rw [seg_snoc full s done.length hs_lt hp_lt]
            exact balanced_wrap _ _ _ _ hs2_bal hs_bal htokS (by rw [htokP, ht])
        · intro k v hkv
          by_cases hkdl : k = done.length
          · subst hkdl
            have hv : v = s := by
              simp [jtInsert] at hkv
              omega
            subst hv
            exact Or.inr hmp
          · by_cases hks : k = s
            · subst hks
              have hv : v = done.length := by
                simp [jtInsert, hkdl] at hkv
                omega
              subst hv
              exact Or.inl hmp
            · exact htable k v (by simpa [jtInsert, hkdl, hks] using hkv)
        · intro x hx hkx
          rw [hlen1] at hx
          by_cases hxp : x = done.length
          · exfalso
            rw [hxp, hkp, ht] at hkx
            simp at hkx
          · have hx' : x < done.length := by omega
            rcases hopen x hx' hkx with hmem | ⟨v, hv⟩
            · rcases List.mem_cons.mp hmem with rfl | hmem2
              · refine Or.inr ⟨done.length, ?_⟩
                simp [jtInsert, hxp]
              · exact Or.inl hmem2
            · by_cases hxs : x = s
              · subst hxs
                refine Or.inr ⟨done.length, ?_⟩
                simp [jtInsert, hxp]
              · refine Or.inr ⟨v, ?_⟩
                simpa [jtInsert, hxp, hxs] using hv
        · rw [countPmj_append, countJmp_append, countPmj_singleton, countJmp_singleton, ht]
          simp at hcount ⊢
          omega
    all_goals
      rw [show loadAux (t0 :: rest) done.length stack table check
          = loadAux rest (done.length + 1) stack table check from by
        simp [loadAux, ht]] at hok
      refine ih (done ++ [t0]) stack table check t hfull'
        (by rw [hlen1]; exact hok) ?_ htable ?_ ?_
      · rw [hlen1]
        cases stack with
        | nil => exact True.intro
        | cons s stack2 =>
          obtain ⟨hs_lt, hs_kind, hs_bal, hsegs2⟩ := hsegs
          refine ⟨by omega, hs_kind, ?_, hsegs2⟩
          rw [seg_snoc full s done.length hs_lt hp_lt]
          exact balanced_append_single _ _ hs_bal
            (by rw [htokP, ht]; decide) (by rw [htokP, ht]; decide)
      · intro x hx hkx
        rw [hlen1] at hx
        by_cases hxp : x = done.length
        · exfalso
          rw [hxp, hkp, ht] at hkx
          simp at hkx
        · exact hopen x (by omega) hkx
      · rw [countPmj_append, countJmp_append, countPmj_singleton, countJmp_singleton, ht]
        simp at hcount ⊢
        omega

/-- Two matched closes for the same open are impossible when the first is nearer:
the nearer close would be an excess close inside the farther pair's balanced body. -/
lemma matchedPair_lt_false (full : List Token) (i j j' : Nat)
    (h1 : matchedPair full i j) (h2 : matchedPair full i j') (hlt : j < j') : False := by
  obtain ⟨hij, hopen_i, hclose_j, hbal⟩ := h1
  obtain ⟨hij', hopen_i', hclose_j', hbal'⟩ := h2
  have hjfull : j < full.length := kindAt_lt full j _ hclose_j
  have hsplit := seg_split full i j j' hij hlt hjfull
  obtain ⟨-, hpre⟩ := balancedAux_props (seg full i j') 0 hbal'
  obtain ⟨hc, -⟩ := balancedAux_props (seg full i j) 0 hbal
  have htj : (full.get ⟨j, hjfull⟩).kind = TokenKind.Pmj := by
    have h4 := kindAt_get full j hjfull
    rw [hclose_j] at h4
    injection h4 with h5
    exact h5.symm
  have h3 := hpre (seg full i j ++ [full.get ⟨j, hjfull⟩]) (seg full j j')
    (by rw [hsplit]; simp)
  rw [countPmj_append, countJmp_append, countPmj_singleton, countJmp_singleton, htj] at h3
  simp at h3
  omega

/-- Each loop-open has at most one matching loop-close. -/
lemma matchedPair_unique (full : List Token) (i j j' : Nat)
    (h1 : matchedPair full i j) (h2 : matchedPair full i j') : j = j' := by
  rcases Nat.lt_trichotomy j j' with hlt | heq | hgt
  · exact (matchedPair_lt_false full i j j' h1 h2 hlt).elim
  · exact heq
  · exact (matchedPair_lt_false full i j' j h2 h1 hgt).elim

/-- C6: for every well-formed program (all brackets matched), jump-table
construction succeeds and the resulting table both contains, for every matched pair
(open at `i`, close at `j`), the two mappings `i ↦ j` and `j ↦ i`, and is symmetric:
whenever it maps `k` to `v` it maps `v` back to `k`, which is exactly
`table[table[k]] == k` for every key `k`. -/
theorem bfi_C6_jump_table_symmetry (ts : List Token) (hb : balanced ts = true) :
    ∃ t, loadJumpTable ts = Except.ok t ∧
      (∀ i j, matchedPair ts i j → t i = some j ∧ t j = some i) ∧
      (∀ k v, t k = some v → t v = some k) := by
  obtain ⟨hc, hp⟩ := balancedAux_props ts 0 hb
  have hok : exOk (loadJumpTable ts) = true := by
    rw [loadJumpTable, loadAux_ok_iff]
    exact ⟨fun p q hpq => by simpa using hp p q hpq, by omega⟩
  cases hlt : loadJumpTable ts with
  | error e =>
    rw [hlt] at hok
    simp [exOk] at hok
  | ok t =>
    rw [loadJumpTable] at hlt
    have hsymm : ∀ k v, t k = some v → t v = some k := by
      refine loadAux_symm ts 0 [] jtEmpty 0 t hlt ?_ ?_ ?_ List.nodup_nil
      · intro k v hkv
        simp [jtEmpty] at hkv
      · intro k v hkv
        simp [jtEmpty] at hkv
      · intro x hx
        exact absurd hx (List.not_mem_nil x)
    obtain ⟨hsound, htotal⟩ := loadAux_pairs ts ts [] [] jtEmpty 0 t (by simp)
      hlt True.intro
      (fun k v hkv => by simp [jtEmpty] at hkv)
      (fun x hx _ => absurd hx (Nat.not_lt_zero x))
      (by simp [countPmj, countJmp])
    refine ⟨t, rfl, ?_, hsymm⟩
    intro i j hm
    obtain ⟨hij, hopen_i, hclose_j, hbal_ij⟩ := hm
    obtain ⟨v, hv⟩ := htotal hb i hopen_i
    have hmv : matchedPair ts i v := by
      rcases hsound i v hv with h | h
      · exact h
      · exfalso
        obtain ⟨-, -, hclose_i, -⟩ := h
        rw [hopen_i] at hclose_i
        simp at hclose_i
    have hvj : v = j := matchedPair_unique ts i v j hmv ⟨hij, hopen_i, hclose_j, hbal_ij⟩
    subst hvj
    exact ⟨hv, hsymm i v hv⟩

/-- C6 witness: the statement instantiated on the well-formed program `[[]]`. -/
theorem bfi_C6_witness :
    balanced (lex ['[', '[', ']', ']']) = true ∧
    ∃ t, loadJumpTable (lex ['[', '[', ']', ']']) = Except.ok t ∧
      (∀ i j, matchedPair (lex ['[', '[', ']', ']']) i j → t i = some j ∧ t j = some i) ∧
      (∀ k v, t k = some v → t v = some k) :=
  ⟨by decide, bfi_C6_jump_table_symmetry (lex ['[', '[', ']', ']']) (by decide)⟩
